import Mathlib

/-!
Verification of the Myaku Japanese lexical-item analyzer
(`myaku/japanese_analysis.py`) against its natural-language specification.

The Python source is shallowly embedded: strings are lists of Unicode code
points (`List Char`, so lengths count code points as the spec requires),
Python dicts are insertion-ordered association lists with unique keys, and
fallible operations return `Except`/`Option`.  The external MeCab tagger
binary is not modelled; its textual output is taken as an input parameter,
exactly as `MecabTagger.parse` receives it from the `MeCab.Tagger` handle.

Definitions whose Python source is not part of the repository snapshot
(`myaku.datatypes`, `myaku.utils`) are modelled from the specification and
are marked as such in their doc comments.
-/

set_option autoImplicit false

namespace Myaku

/-- Python strings, one element per Unicode code point. -/
abbrev Str := List Char

/-- Modelled from the spec: `ArticleTextPosition` from `myaku.datatypes`
(not in the source snapshot): `(start: char-offset-in-article,
length: char-count)`, offsets in code points. -/
structure ArticleTextPosition where
  start : Nat
  length : Nat
deriving DecidableEq, Inhabited

/-- Modelled from the spec: `MecabLexicalItemInterp` from `myaku.datatypes`
(not in the source snapshot): an ordered tuple of part-of-speech tags plus
an optional conjugated-type tag and an optional conjugated-form tag. -/
structure MecabLexicalItemInterp where
  parts_of_speech : List Str
  conjugated_type : Option Str
  conjugated_form : Option Str
deriving DecidableEq, Inhabited

/-- Modelled from the spec: `InterpSource` from `myaku.datatypes`
(not in the source snapshot): which lookup produced an interpretation. -/
inductive InterpSource where
  | MECAB
  | JMDICT_MECAB_DECOMP
  | JMDICT_SURFACE_FORM
  | JMDICT_BASE_FORM
deriving DecidableEq, Inhabited

/-- Modelled from the spec: `JpnLexicalItemInterp` from `myaku.datatypes`
(not in the source snapshot): a sum of two shapes, either a morph (MeCab)
interpretation or a dictionary-entry interpretation, with its sources. -/
structure JpnLexicalItemInterp where
  jmdict_interp_entry_id : Option Str := none
  mecab_interp : Option MecabLexicalItemInterp := none
  interp_sources : List InterpSource
deriving DecidableEq, Inhabited

/-- Modelled from the spec: `FoundJpnLexicalItem` from `myaku.datatypes`
(not in the source snapshot): base form, found positions, possible
interpretations, and the per-position surface-form cache (positions for
which the literal substring in the article differs from the base form). -/
structure FoundJpnLexicalItem where
  base_form : Str
  found_positions : List ArticleTextPosition
  possible_interps : List JpnLexicalItemInterp
  surface_form_cache : List (ArticleTextPosition × Str) := []
deriving DecidableEq, Inhabited

/-- Modelled from the spec: `FoundJpnLexicalItem.cache_surface_form` from
`myaku.datatypes` (not in the source snapshot).  The cache records the
positions for which the literal substring in the article differs from the
base form, so a surface form equal to the base form is not stored. -/
def cacheSurfaceForm (fli : FoundJpnLexicalItem) (surface : Str)
    (pos : ArticleTextPosition) : FoundJpnLexicalItem :=
  if surface = fli.base_form then fli
  else { fli with surface_form_cache := fli.surface_form_cache ++ [(pos, surface)] }

/-- Modelled from the spec: `FoundJpnLexicalItem.get_first_surface_form` from
`myaku.datatypes` (not in the source snapshot).  Returns the literal
surface form at the item's first found position: the cached surface form
for that position when one differs from the base form, and the base form
itself otherwise. -/
def getFirstSurfaceForm (fli : FoundJpnLexicalItem) : Str :=
  match fli.found_positions.head? with
  | none => fli.base_form
  | some p =>
    match fli.surface_form_cache.find? (fun q => decide (q.1 = p)) with
    | none => fli.base_form
    | some q => q.2

/-- Python `str.split(sep)` for a single-character separator
(`"".split(sep)` is `[""]`). -/
def splitSep (sep : Char) : Str → List Str
  | [] => [[]]
  | c :: rest =>
    let parts := splitSep sep rest
    if c = sep then [] :: parts
    else
      match parts with
      | [] => [[c]]
      | p :: ps => (c :: p) :: ps

/-- Python `str.splitlines()` restricted to the newline character, which is
the only line boundary appearing in MeCab chasen output: split on every
newline and drop the trailing empty piece a final newline would produce. -/
def pySplitlines (s : Str) : List Str :=
  if s = [] then []
  else
    let parts := splitSep '\n' s
    if parts.getLast? = some [] then parts.dropLast else parts

/-- MecabTagger._END_OF_SECTION_MARKER. -/
def endOfSectionMarker : Str := "EOS".toList

/-- MecabTagger._POS_SPLITTER. -/
def posSplitter : Char := '-'

/-- MecabTagger._TOKEN_SPLITTER. -/
def tokenSplitter : Char := '\t'

/-- MecabTagger._EXPECTED_TOKEN_TAG_COUNTS. -/
def expectedTokenTagCounts : List Nat := [4, 5, 6]

/-- Key of the one entry of MecabTagger._ADJUST_TAGS_MAP. -/
def adjustTagsKey : List Str :=
  ["な".toList, "ナ".toList, "だ".toList,
   "助動詞".toList, "特殊・ダ".toList, "体言接続".toList]

/-- Value of the one entry of MecabTagger._ADJUST_TAGS_MAP. -/
def adjustTagsVal : List Str :=
  ["な".toList, "ナ".toList, "な".toList,
   "助動詞".toList, "特殊・ダ".toList, "体言接続".toList]

/-- MecabTagger._ADJUST_TAGS_MAP as a lookup (`dict.get`). -/
def adjustTagsMap (tags : List Str) : Option (List Str) :=
  if tags = adjustTagsKey then some adjustTagsVal else none

/-- MecabTagger._adjust_if_known_problem: if the base form (tag 2) is blank
while the surface form (tag 0) is not, set the base form to the surface
form; then replace the whole tag tuple if it is a key of
_ADJUST_TAGS_MAP (the replacement has the same arity as the key). -/
def adjustIfKnownProblem (tags : List Str) : List Str :=
  let tags :=
    if 4 ≤ tags.length ∧ 0 < (tags.getD 0 []).length ∧ (tags.getD 2 []).length = 0
    then tags.set 2 (tags.getD 0 [])
    else tags
  match adjustTagsMap tags with
  | some adjusted => adjusted
  | none => tags

/-- MecabTagger._parse_mecab_output: split the chasen output into lines,
skip empty lines, split each line on tabs, apply the known-problem
adjustments, and drop empty tags. -/
def parseMecabOutput (output : Str) : List (List Str) :=
  (pySplitlines output).filterMap (fun line =>
    if line.length = 0 then none
    else
      let tags := splitSep tokenSplitter line
      let tags := adjustIfKnownProblem tags
      some (tags.filter (fun t => 0 < t.length)))

/-- Python `text[offset:offset + len(surface)] == surface`. -/
def sliceMatches (text : Str) (offset : Nat) (surface : Str) : Bool :=
  decide ((text.drop offset).take surface.length = surface)

/-- The offset-adjustment `while` loop of MecabTagger.parse, made total with
explicit fuel: starting from `offset`, advance one position at a time until
the slice of `text` at the cursor equals `surface`.  The Python loop has no
bound: `none` for every fuel means the loop never terminates. -/
def alignLoop (text : Str) (surface : Str) : Nat → Nat → Option Nat
  | 0, _ => none
  | fuel + 1, offset =>
    if sliceMatches text offset surface then some offset
    else alignLoop text surface fuel (offset + 1)

/-- Total alignment search: the first cursor position at or after `offset`
whose slice of `text` equals `surface`.  Searching up to `text.length` is
exhaustive: past the end of the text every slice is empty, so a non-empty
surface form can never match there, and an empty one matches at once. -/
def findAlign (text : Str) (offset : Nat) (surface : Str) : Option Nat :=
  alignLoop text surface (text.length + 1 - offset + 1) offset

set_option linter.unusedVariables false in
/-- MecabTagger._create_mecab_interp.  In the source the branch for six tags
(`if len(parsed_token_tags) >= 6`) builds an interp carrying both the
conjugated type and the conjugated form, but the next statement is
`if len(parsed_token_tags) >= 5: ... else: ...` rather than `elif`, so that
six-tag interp is unconditionally overwritten and the conjugated form is
never kept.  The first (dead) assignment is kept here as a shadowed
binding to mirror the source. -/
def createMecabInterp (tags : List Str) : JpnLexicalItemInterp :=
  let parts_of_speech := splitSep posSplitter (tags.getD 3 [])
  let mecab_interp : Option MecabLexicalItemInterp :=
    if 6 ≤ tags.length then
      some { parts_of_speech := parts_of_speech
             conjugated_type := some (tags.getD 4 [])
             conjugated_form := some (tags.getD 5 []) }
    else none
  let mecab_interp : Option MecabLexicalItemInterp :=
    if 5 ≤ tags.length then
      some { parts_of_speech := parts_of_speech
             conjugated_type := some (tags.getD 4 [])
             conjugated_form := none }
    else
      some { parts_of_speech := parts_of_speech
             conjugated_type := none
             conjugated_form := none }
  { jmdict_interp_entry_id := none
    mecab_interp := mecab_interp
    interp_sources := [InterpSource.MECAB] }

/-- MecabTagger._create_found_lexical_item: one position of the surface
form's length at the given offset, the single tagger interpretation, and
the surface form cached for that position. -/
def createFoundLexicalItem (tags : List Str) (interp : JpnLexicalItemInterp)
    (offset : Nat) : FoundJpnLexicalItem :=
  let pos : ArticleTextPosition := { start := offset, length := (tags.getD 0 []).length }
  let fli : FoundJpnLexicalItem :=
    { base_form := tags.getD 2 []
      found_positions := [pos]
      possible_interps := [interp]
      surface_form_cache := [] }
  cacheSurfaceForm fli (tags.getD 0 []) pos

/-- Result of MecabTagger.parse: a list of found lexical items, a
TextAnalysisError, or divergence of the offset-adjustment while loop. -/
inductive ParseResult where
  | ok (items : List FoundJpnLexicalItem)
  | textAnalysisError
  | diverge
deriving DecidableEq

/-- Prepend a found item to a successful result, passing failures and
divergence through unchanged. -/
def consOk (fli : FoundJpnLexicalItem) : ParseResult → ParseResult
  | ParseResult.ok items => ParseResult.ok (fli :: items)
  | r => r

/-- The per-token loop of MecabTagger.parse over the parsed token lists:
skip `EOS` markers, fail on a token count other than 4, 5 or 6, otherwise
advance the cursor to the first position where the text matches the
surface form (diverging if there is none), record the found lexical item
at `text_offset` plus the cursor, and advance the cursor past the
surface form. -/
def parseTokens (text : Str) (text_offset : Nat) :
    List (List Str) → Nat → ParseResult
  | [], _ => ParseResult.ok []
  | tags :: rest, offset =>
    if tags.length = 1 ∧ tags.getD 0 [] = endOfSectionMarker then
      parseTokens text text_offset rest offset
    else if tags.length ∉ expectedTokenTagCounts then
      ParseResult.textAnalysisError
    else
      match findAlign text offset (tags.getD 0 []) with
      | none => ParseResult.diverge
      | some k =>
        consOk (createFoundLexicalItem tags (createMecabInterp tags) (text_offset + k))
          (parseTokens text text_offset rest (k + (tags.getD 0 []).length))

/-- MecabTagger.parse.  The raw chasen output of the external MeCab tagger
for `text` is an explicit argument, since the tagger binary is outside the
embedded program. -/
def parse (text : Str) (mecab_out : Str) (text_offset : Nat) : ParseResult :=
  parseTokens text text_offset (parseMecabOutput mecab_out) 0

/-- JMdictEntry: one text form of one JMdict record with the annotations
projected onto it.  Python compares dataclass instances field-wise, which
matches structural equality here. -/
structure JMdictEntry where
  entry_id : Str := []
  text_form : Str := []
  text_form_info : Option (List Str) := none
  text_form_freq : Option (List Str) := none
  parts_of_speech : Option (List Str) := none
  fields : Option (List Str) := none
  dialects : Option (List Str) := none
  misc : Option (List Str) := none
deriving DecidableEq, Inhabited

/-- Lookup in a Python dict modelled as an insertion-ordered association
list with unique keys. -/
def dictGet {κ α : Type} [DecidableEq κ] : List (κ × α) → κ → Option α
  | [], _ => none
  | p :: rest, k => if p.1 = k then some p.2 else dictGet rest k

/-- Python `defaultdict(list)` append: `m[k].append(v)`.  Updates the value
list of the entry holding `k`, or appends a new `(k, [v])` entry at the
end, preserving insertion order. -/
def dictAppend {κ α : Type} [DecidableEq κ] :
    List (κ × List α) → κ → α → List (κ × List α)
  | [], k, v => [(k, [v])]
  | p :: rest, k, v =>
    if p.1 = k then (p.1, p.2 ++ [v]) :: rest
    else p :: dictAppend rest k v

/-- Iterated defaultdict appends keyed by `keyf`: the common shape of both
index-building loops. -/
def ddFold {κ α : Type} [DecidableEq κ] (keyf : α → κ)
    (m : List (κ × List α)) (es : List α) : List (κ × List α) :=
  es.foldl (fun acc e => dictAppend acc (keyf e) e) m

/-- Python dict assignment `m[k] = v`: replace the value of the entry
holding `k`, or append a new entry at the end. -/
def dictSet {κ α : Type} [DecidableEq κ] : List (κ × α) → κ → α → List (κ × α)
  | [], k, v => [(k, v)]
  | p :: rest, k, v =>
    if p.1 = k then (p.1, v) :: rest
    else p :: dictSet rest k v

/-- Loaded JMdict data: the two inverted indexes and the two max-length
scalars, as held by a JMdict object after a successful load. -/
structure JMdictData where
  entry_map : List (Str × List JMdictEntry)
  mecab_decomp_map : List (List Str × List JMdictEntry)
  max_text_form_len : Nat
  max_mecab_decomp_len : Nat

/-- JMdict.get_entries on a loaded store, string (text form) key. -/
def getEntriesByForm (jm : JMdictData) (s : Str) : List JMdictEntry :=
  (dictGet jm.entry_map s).getD []

/-- JMdict.get_entries on a loaded store, tuple (MeCab decomposition) key. -/
def getEntriesByDecomp (jm : JMdictData) (t : List Str) : List JMdictEntry :=
  (dictGet jm.mecab_decomp_map t).getD []

/-- Modelled from the spec: `utils.unique` from `myaku.utils` (not in the
source snapshot): the unique elements of a list preserving first-seen
order. -/
def unique {α : Type} [DecidableEq α] (xs : List α) : List α :=
  xs.foldl (fun acc x => if x ∈ acc then acc else acc ++ [x]) []

/-- JapaneseTextAnalyzer._SYMBOL_PART_OF_SPEECH. -/
def symbolPartOfSpeech : Str := "記号".toList

/-- JapaneseTextAnalyzer._is_symbol: scan every possible interpretation,
skip the ones with no MeCab interp, and report a symbol as soon as any
part-of-speech tag of any MeCab interp equals the symbol tag. -/
def isSymbol (fli : FoundJpnLexicalItem) : Bool :=
  fli.possible_interps.any (fun interp =>
    match interp.mecab_interp with
    | none => false
    | some mi => mi.parts_of_speech.any (fun p => decide (p = symbolPartOfSpeech)))

/-- The symbol-filtering step of JapaneseTextAnalyzer._find_lexical_items:
discard every item classified as a symbol. -/
def filterSymbolItems (items : List FoundJpnLexicalItem) : List FoundJpnLexicalItem :=
  items.filter (fun item => ! isSymbol item)

/-- JapaneseTextAnalyzer._within_jmdict_max_entry_len: at least one of the
three length measures of the series is within the corresponding max
JMdict entry length. -/
def withinJmdictMaxEntryLen (jm : JMdictData) (flis : List FoundJpnLexicalItem) : Bool :=
  if flis.length ≤ jm.max_mecab_decomp_len then true
  else if (flis.map (fun item => item.base_form.length)).sum ≤ jm.max_text_form_len then true
  else if (flis.map (fun item => (getFirstSurfaceForm item).length)).sum
      ≤ jm.max_text_form_len then true
  else false

/-- JapaneseTextAnalyzer._lookup_meta_lexical_item: query the store by
MeCab decomposition, by concatenated surface form and by concatenated base
form; if every result set is empty emit nothing, otherwise emit one meta
item per entry of the first-seen-order unique union, with the source tags
of the lookups that returned the entry. -/
def lookupMetaLexicalItem (jm : JMdictData) (base_decomp : List FoundJpnLexicalItem) :
    List FoundJpnLexicalItem :=
  let decomp_base_forms := base_decomp.map (fun item => item.base_form)
  let decomp_entries := getEntriesByDecomp jm decomp_base_forms
  let surface_form := (base_decomp.map (fun item => getFirstSurfaceForm item)).flatten
  let surface_entries := getEntriesByForm jm surface_form
  let base_form := decomp_base_forms.flatten
  let base_entries := getEntriesByForm jm base_form
  if decomp_entries = [] ∧ surface_entries = [] ∧ base_entries = [] then []
  else
    (unique (decomp_entries ++ surface_entries ++ base_entries)).map (fun entry =>
      let sources :=
        (if entry ∈ decomp_entries then [InterpSource.JMDICT_MECAB_DECOMP] else [])
        ++ (if entry ∈ surface_entries then [InterpSource.JMDICT_SURFACE_FORM] else [])
        ++ (if entry ∈ base_entries then [InterpSource.JMDICT_BASE_FORM] else [])
      { base_form := entry.text_form
        found_positions :=
          [{ start := (((base_decomp.getD 0 default).found_positions.getD 0 default).start)
             length := surface_form.length }]
        possible_interps :=
          [{ jmdict_interp_entry_id := some entry.entry_id
             mecab_interp := none
             interp_sources := sources }]
        surface_form_cache := [] })

/-- The windows `base_lexical_items[start:end + 1]` of
JapaneseTextAnalyzer._find_meta_lexical_items, for one value of `start`
and the remaining candidate `end` indices: the inner while loop breaks at
the first window that exceeds every max entry length. -/
def innerMetaWindows (jm : JMdictData) (items : List FoundJpnLexicalItem)
    (start : Nat) : List Nat → List (List FoundJpnLexicalItem)
  | [] => []
  | e :: rest =>
    let decomp := (items.drop start).take (e + 1 - start)
    if withinJmdictMaxEntryLen jm decomp then
      decomp :: innerMetaWindows jm items start rest
    else []

/-- The inner while loop of JapaneseTextAnalyzer._find_meta_lexical_items:
look up each window until the first one that exceeds every max entry
length. -/
def innerMetaItems (jm : JMdictData) (items : List FoundJpnLexicalItem)
    (start : Nat) : List Nat → List FoundJpnLexicalItem
  | [] => []
  | e :: rest =>
    let decomp := (items.drop start).take (e + 1 - start)
    if withinJmdictMaxEntryLen jm decomp then
      lookupMetaLexicalItem jm decomp ++ innerMetaItems jm items start rest
    else []

/-- The candidate `end` indices for one `start`: `start + 1` up to
`len(items) - 1`. -/
def metaEndIndices (items : List FoundJpnLexicalItem) (start : Nat) : List Nat :=
  List.range' (start + 1) (items.length - (start + 1))

/-- JapaneseTextAnalyzer._find_meta_lexical_items. -/
def findMetaLexicalItems (jm : JMdictData) (items : List FoundJpnLexicalItem) :
    List FoundJpnLexicalItem :=
  (List.range items.length).flatMap (fun start =>
    innerMetaItems jm items start (metaEndIndices items start))

/-- All windows on which JapaneseTextAnalyzer._find_meta_lexical_items
performs a dictionary lookup. -/
def metaLookupWindows (jm : JMdictData) (items : List FoundJpnLexicalItem) :
    List (List FoundJpnLexicalItem) :=
  (List.range items.length).flatMap (fun start =>
    innerMetaWindows jm items start (metaEndIndices items start))

/-- JapaneseTextAnalyzer._find_lexical_items after the tagger call: append
the meta items to the base items and drop the symbols.  (Attaching the
article back-reference has no effect on the modelled fields.) -/
def findLexicalItems (jm : JMdictData) (mecab_lexical_items : List FoundJpnLexicalItem) :
    List FoundJpnLexicalItem :=
  let meta_lexical_items := findMetaLexicalItems jm mecab_lexical_items
  filterSymbolItems (mecab_lexical_items ++ meta_lexical_items)

/-- The mutable state of a JMdict object: the two indexes and the two
max-length scalars, each `None` until a successful load. -/
structure JMdictObj where
  entry_map : Option (List (Str × List JMdictEntry))
  mecab_decomp_map : Option (List (List Str × List JMdictEntry))
  max_text_form_len : Option Nat
  max_mecab_decomp_len : Option Nat

/-- JMdict.__init__ with no XML file path: nothing loaded yet. -/
def initJMdictObj : JMdictObj :=
  { entry_map := none, mecab_decomp_map := none
    max_text_form_len := none, max_mecab_decomp_len := none }

/-- Maximum of a list of naturals (`max(...)` over a non-empty iterable in
the source; `0` on the empty list, which a loaded dictionary never has). -/
def maxNat (xs : List Nat) : Nat := xs.foldr Nat.max 0

/-- The map-building loop of JMdict.load_jmdict: for each parsed entry
object append it to the decomposition index under its MeCab decomposition
and to the text-form index under its text form.  The decomposition of an
entry is `_get_mecab_decomb`, a fixed function `d` of the entry's text
form (the base forms that MecabTagger.parse produces for it). -/
def buildMaps (d : Str → List Str) (entries : List JMdictEntry) :
    List (Str × List JMdictEntry) × List (List Str × List JMdictEntry) :=
  entries.foldl (fun maps e =>
    (dictAppend maps.1 e.text_form e, dictAppend maps.2 (d e.text_form) e))
    ([], [])

/-- JMdict._set_max_entry_lens on a text-form index: the max text form
length over the index keys. -/
def maxTextFormLenOf (em : List (Str × List JMdictEntry)) : Nat :=
  maxNat (em.map (fun p => p.1.length))

/-- JMdict._set_max_entry_lens on a decomposition index: the max
decomposition length over the index keys. -/
def maxMecabDecompLenOf (dm : List (List Str × List JMdictEntry)) : Nat :=
  maxNat (dm.map (fun p => p.1.length))

/-- JMdict.load_jmdict when the XML must be parsed: build both indexes
from the parsed entry objects and compute the max-length scalars.
(The XML parse itself yields `entries`; `d` is the MeCab decomposition
function.) -/
def loadJmdictFromXml (d : Str → List Str) (entries : List JMdictEntry) : JMdictObj :=
  let maps := buildMaps d entries
  { entry_map := some maps.1
    mecab_decomp_map := some maps.2
    max_text_form_len := some (maxTextFormLenOf maps.1)
    max_mecab_decomp_len := some (maxMecabDecompLenOf maps.2) }

/-- JMdict._write_to_shelf: the shelf stores only the decomposition-index
items, in insertion order. -/
def writeToShelf (dm : List (List Str × List JMdictEntry)) :
    List (List Str × List JMdictEntry) :=
  dm

/-- The decomposition-index rebuild of JMdict._load_from_shelf_if_newer:
`self._mecab_decomp_map[mecab_decomp] = entry_list` for each shelf item in
order, starting from an empty dict. -/
def shelfRebuildDecompMap (items : List (List Str × List JMdictEntry)) :
    List (List Str × List JMdictEntry) :=
  items.foldl (fun dm kv => dictSet dm kv.1 kv.2) []

/-- The text-form-index rebuild of JMdict._load_from_shelf_if_newer:
`self._entry_map[entry.text_form].append(entry)` for each entry of each
shelf item in order, starting from an empty defaultdict. -/
def shelfRebuildEntryMap (items : List (List Str × List JMdictEntry)) :
    List (Str × List JMdictEntry) :=
  items.foldl (fun em kv =>
    kv.2.foldl (fun em2 e => dictAppend em2 e.text_form e) em) []

/-- The state after the shelf-reading branch of
JMdict._load_from_shelf_if_newer: both indexes rebuilt from the shelf
items and the max-length scalars recomputed. -/
def loadFromShelfItems (items : List (List Str × List JMdictEntry)) : JMdictObj :=
  let em := shelfRebuildEntryMap items
  let dm := shelfRebuildDecompMap items
  { entry_map := some em
    mecab_decomp_map := some dm
    max_text_form_len := some (maxTextFormLenOf em)
    max_mecab_decomp_len := some (maxMecabDecompLenOf dm) }

/-- JMdict._load_from_shelf_if_newer: if the shelf file exists and its
modification time is strictly greater than the comparison timestamp, load
the JMdict data from the shelf items and report `true`; otherwise leave
the state unchanged and report `false`. -/
def loadFromShelfIfNewer (o : JMdictObj) (shelfExists : Bool)
    (shelfTimestamp compTimestamp : Int)
    (items : List (List Str × List JMdictEntry)) : Bool × JMdictObj :=
  if ! shelfExists then (false, o)
  else if shelfTimestamp ≤ compTimestamp then (false, o)
  else (true, loadFromShelfItems items)

/-- A key accepted by JMdict.contains_entry / JMdict.get_entries: a string
(text form) or a tuple of strings (MeCab decomposition). -/
inductive JMdictKey where
  | textForm (s : Str)
  | mecabDecomp (t : List Str)

/-- JMdict.contains_entry: ResourceNotReadyError (modelled as
`Except.error ()`) when either index has not been loaded; otherwise key
membership in the index selected by the key's shape. -/
def containsEntry (o : JMdictObj) (k : JMdictKey) : Except Unit Bool :=
  match o.entry_map, o.mecab_decomp_map with
  | some em, some dm =>
    Except.ok (match k with
      | JMdictKey.textForm s => (dictGet em s).isSome
      | JMdictKey.mecabDecomp t => (dictGet dm t).isSome)
  | _, _ => Except.error ()

/-- JMdict.get_entries: ResourceNotReadyError (modelled as
`Except.error ()`) when either index has not been loaded; otherwise
`dict.get(key, [])` on the index selected by the key's shape. -/
def getEntries (o : JMdictObj) (k : JMdictKey) : Except Unit (List JMdictEntry) :=
  match o.entry_map, o.mecab_decomp_map with
  | some em, some dm =>
    Except.ok (match k with
      | JMdictKey.textForm s => (dictGet em s).getD []
      | JMdictKey.mecabDecomp t => (dictGet dm t).getD [])
  | _, _ => Except.error ()

/-- The specification's symbol classification, stated in its own words for
comparison with the code's `isSymbol`: all of the item's morph
interpretations have first part-of-speech equal to the symbol tag. -/
def specAllMorphInterpsFirstPosSymbol (fli : FoundJpnLexicalItem) : Bool :=
  fli.possible_interps.all (fun interp =>
    match interp.mecab_interp with
    | none => true
    | some mi => decide (mi.parts_of_speech.head? = some symbolPartOfSpeech))

/-- A lexical item with a single MeCab interpretation whose first
part-of-speech tag is 名詞 (not the symbol tag) but whose second is 記号. -/
def symbolCexItem : FoundJpnLexicalItem :=
  { base_form := "〆".toList
    found_positions := [{ start := 0, length := 1 }]
    possible_interps :=
      [{ mecab_interp := some { parts_of_speech := ["名詞".toList, "記号".toList]
                                conjugated_type := none
                                conjugated_form := none }
         interp_sources := [InterpSource.MECAB] }] }

/-- A six-tag chasen token: 食べ, reading タベ, base form 食べる,
parts-of-speech 動詞-自立, conjugated type 一段, conjugated form 連用形. -/
def sixTagTokenExample : List Str :=
  ["食べ".toList, "タベ".toList, "食べる".toList,
   "動詞-自立".toList, "一段".toList, "連用形".toList]

/-- A text in which the surface form ぬ of the token below never occurs. -/
def alignFailText : Str := "あい".toList

/-- One well-formed four-tag token line whose surface form ぬ does not
occur in `alignFailText`. -/
def alignFailOut : Str := "ぬ\tヌ\tぬ\t助動詞".toList

/-- The surface form of the token of `alignFailOut`. -/
def alignFailSurface : Str := "ぬ".toList

/-- The whitespace-alignment scenario text 猫 が 走る (spaces present). -/
def nekoText : Str := "猫 が 走る".toList

/-- Chasen output for `nekoText`: MeCab drops the spaces, tags 猫 and が
with four tags, 走る with six, and ends the sentence with EOS. -/
def nekoOut : Str :=
  ("猫\tネコ\t猫\t名詞-一般\nが\tガ\tが\t助詞-格助詞-一般\n"
    ++ "走る\tハシル\t走る\t動詞-自立\t五段・ラ行\t基本形\nEOS\n").toList

/-- The base item for 猫 expected from parsing `nekoOut`. -/
def nekoItem1 : FoundJpnLexicalItem :=
  { base_form := "猫".toList
    found_positions := [{ start := 0, length := 1 }]
    possible_interps :=
      [{ mecab_interp := some { parts_of_speech := ["名詞".toList, "一般".toList]
                                conjugated_type := none, conjugated_form := none }
         interp_sources := [InterpSource.MECAB] }] }

/-- The base item for が expected from parsing `nekoOut`. -/
def nekoItem2 : FoundJpnLexicalItem :=
  { base_form := "が".toList
    found_positions := [{ start := 2, length := 1 }]
    possible_interps :=
      [{ mecab_interp := some { parts_of_speech := ["助詞".toList, "格助詞".toList, "一般".toList]
                                conjugated_type := none, conjugated_form := none }
         interp_sources := [InterpSource.MECAB] }] }

/-- The base item for 走る expected from parsing `nekoOut` (its conjugated
form tag 基本形 is lost to the overwrite in `createMecabInterp`). -/
def nekoItem3 : FoundJpnLexicalItem :=
  { base_form := "走る".toList
    found_positions := [{ start := 4, length := 2 }]
    possible_interps :=
      [{ mecab_interp := some { parts_of_speech := ["動詞".toList, "自立".toList]
                                conjugated_type := some "五段・ラ行".toList
                                conjugated_form := none }
         interp_sources := [InterpSource.MECAB] }] }

/-- A small dictionary entry: 食べ物 with entry id 1000. -/
def tabemonoEntry : JMdictEntry :=
  { entry_id := "1000".toList, text_form := "食べ物".toList }

/-- A loaded store holding only 食べ物, indexed by text form and by the
MeCab decomposition (食べる, 物). -/
def exampleJmdict : JMdictData :=
  { entry_map := [("食べ物".toList, [tabemonoEntry])]
    mecab_decomp_map := [(["食べる".toList, "物".toList], [tabemonoEntry])]
    max_text_form_len := 3
    max_mecab_decomp_len := 2 }

/-- A base item for surface 食べ with base form 食べる at offset 0. -/
def tabeItem : FoundJpnLexicalItem :=
  { base_form := "食べる".toList
    found_positions := [{ start := 0, length := 2 }]
    possible_interps :=
      [{ mecab_interp := some { parts_of_speech := ["動詞".toList, "自立".toList]
                                conjugated_type := some "一段".toList, conjugated_form := none }
         interp_sources := [InterpSource.MECAB] }]
    surface_form_cache := [({ start := 0, length := 2 }, "食べ".toList)] }

/-- A base item for 物 at offset 2. -/
def monoItem : FoundJpnLexicalItem :=
  { base_form := "物".toList
    found_positions := [{ start := 2, length := 1 }]
    possible_interps :=
      [{ mecab_interp := some { parts_of_speech := ["名詞".toList, "一般".toList]
                                conjugated_type := none, conjugated_form := none }
         interp_sources := [InterpSource.MECAB] }] }

/-- The meta item the finder emits for the window (食べ, 物): found both by
decomposition and by concatenated surface form. -/
def tabemonoMetaItem : FoundJpnLexicalItem :=
  { base_form := "食べ物".toList
    found_positions := [{ start := 0, length := 3 }]
    possible_interps :=
      [{ jmdict_interp_entry_id := some "1000".toList
         mecab_interp := none
         interp_sources := [InterpSource.JMDICT_MECAB_DECOMP,
                            InterpSource.JMDICT_SURFACE_FORM] }] }

/-! Helper lemmas. -/

/-- The code's symbol test succeeds exactly when some interpretation has a
MeCab interp with the symbol tag somewhere among its parts of speech. -/
theorem isSymbol_eq_true_iff (fli : FoundJpnLexicalItem) :
    isSymbol fli = true ↔
      ∃ interp ∈ fli.possible_interps, ∃ mi,
        interp.mecab_interp = some mi ∧ symbolPartOfSpeech ∈ mi.parts_of_speech := by
  unfold isSymbol
  rw [List.any_eq_true]
  constructor
  · rintro ⟨interp, hmem, hmatch⟩
    refine ⟨interp, hmem, ?_⟩
    cases h : interp.mecab_interp with
    | none => rw [h] at hmatch; exact absurd hmatch (by simp)
    | some mi =>
      rw [h] at hmatch
      simp only [List.any_eq_true, decide_eq_true_eq] at hmatch
      obtain ⟨p, hp, hpe⟩ := hmatch
      exact ⟨mi, rfl, hpe ▸ hp⟩
  · rintro ⟨interp, hmem, mi, hmi, hsym⟩
    refine ⟨interp, hmem, ?_⟩
    rw [hmi]
    simp only [List.any_eq_true, decide_eq_true_eq]
    exact ⟨symbolPartOfSpeech, hsym, rfl⟩

/-- Meta items built by the lookup carry exactly one interpretation, and it
has no MeCab interp. -/
theorem lookupMeta_interps_no_mecab (jm : JMdictData)
    (base_decomp : List FoundJpnLexicalItem) (fli : FoundJpnLexicalItem)
    (hmem : fli ∈ lookupMetaLexicalItem jm base_decomp) :
    ∀ interp ∈ fli.possible_interps, interp.mecab_interp = none := by
  simp only [lookupMetaLexicalItem] at hmem
  split at hmem
  · exact absurd hmem (by simp)
  · obtain ⟨entry, _, rfl⟩ := List.mem_map.mp hmem
    intro interp hinterp
    simp only [List.mem_singleton] at hinterp
    rw [hinterp]

/-- Every member of an inner-loop result comes from a window lookup. -/
theorem mem_innerMetaItems (jm : JMdictData) (items : List FoundJpnLexicalItem)
    (start : Nat) (ends : List Nat) (fli : FoundJpnLexicalItem)
    (hmem : fli ∈ innerMetaItems jm items start ends) :
    ∃ decomp, fli ∈ lookupMetaLexicalItem jm decomp := by
  induction ends with
  | nil => exact absurd hmem (by simp [innerMetaItems])
  | cons e rest ih =>
    rw [innerMetaItems] at hmem
    split at hmem
    · rcases List.mem_append.mp hmem with h | h
      · exact ⟨_, h⟩
      · exact ih h
    · exact absurd hmem (by simp)

/-- Every member of the meta finder's result comes from a window lookup. -/
theorem mem_findMetaLexicalItems (jm : JMdictData) (items : List FoundJpnLexicalItem)
    (fli : FoundJpnLexicalItem) (hmem : fli ∈ findMetaLexicalItems jm items) :
    ∃ decomp, fli ∈ lookupMetaLexicalItem jm decomp := by
  unfold findMetaLexicalItems at hmem
  obtain ⟨start, _, h⟩ := List.mem_flatMap.mp hmem
  exact mem_innerMetaItems jm items start _ fli h

/-! Claim theorems. -/

/-- C1 (counterexample): an item with one morph interpretation whose first
part-of-speech is 名詞, not the symbol tag — so, per the claim, an item
that must survive the filter — is classified as a symbol by the code and
dropped by the orchestrator's filtering step. -/
theorem c1_symbol_filter_counterexample :
    specAllMorphInterpsFirstPosSymbol symbolCexItem = false
    ∧ isSymbol symbolCexItem = true
    ∧ filterSymbolItems [symbolCexItem] = [] := by decide

/-- C1 (amended): in the orchestrator's filtering step, a FoundLexicalItem
is dropped as a symbol if and only if at least one of its morph
interpretations has some part-of-speech tag (at any depth, not only the
first) equal to the symbol tag 記号; every FLI none of whose morph
interpretations contains 記号 anywhere survives the filter. -/
theorem c1_symbol_filter_amended (items : List FoundJpnLexicalItem)
    (fli : FoundJpnLexicalItem) :
    fli ∈ filterSymbolItems items ↔
      fli ∈ items ∧
        ¬ ∃ interp ∈ fli.possible_interps, ∃ mi,
          interp.mecab_interp = some mi ∧ symbolPartOfSpeech ∈ mi.parts_of_speech := by
  rw [filterSymbolItems, List.mem_filter, ← isSymbol_eq_true_iff]
  simp

/-- C2: for every parsed token line, the MeCab interpretation created by
the tagger adapter never carries a conjugated-form tag: the six-tag branch
of `_create_mecab_interp` is unconditionally overwritten by the following
`if len(...) >= 5` statement (a missing `elif`).  In particular, on the
six-tag token (食べ, タベ, 食べる, 動詞-自立, 一段, 連用形) the interp
has conjugated type 一段 but no conjugated form, although column 5 holds
連用形. -/
theorem c2_conjugated_form_always_dropped :
    (createMecabInterp sixTagTokenExample).mecab_interp
      = some { parts_of_speech := ["動詞".toList, "自立".toList]
               conjugated_type := some "一段".toList
               conjugated_form := none }
    ∧ ∀ (tags : List Str) (mi : MecabLexicalItemInterp),
        (createMecabInterp tags).mecab_interp = some mi → mi.conjugated_form = none := by
  refine ⟨by decide, ?_⟩
  intro tags mi h
  unfold createMecabInterp at h
  by_cases h5 : 5 ≤ tags.length <;> simp [h5] at h <;> rw [← h]

/-- C2 (witness). -/
theorem c2_conjugated_form_always_dropped_witness :
    (createMecabInterp sixTagTokenExample).mecab_interp
      = some { parts_of_speech := ["動詞".toList, "自立".toList]
               conjugated_type := some "一段".toList
               conjugated_form := none }
    ∧ ({ parts_of_speech := ["動詞".toList, "自立".toList]
         conjugated_type := some "一段".toList
         conjugated_form := none : MecabLexicalItemInterp }).conjugated_form = none :=
  ⟨c2_conjugated_form_always_dropped.1,
   c2_conjugated_form_always_dropped.2 sixTagTokenExample _ (by decide)⟩

/-- C10: an item none of whose interpretations carries a MeCab interp is
never classified as a symbol; every meta item emitted by the meta-item
finder has a single dictionary interpretation with no MeCab interp, so
meta items are never dropped by the orchestrator's symbol filter and
always appear in the filtered output. -/
theorem c10_meta_items_never_symbols :
    (∀ fli : FoundJpnLexicalItem,
        (∀ interp ∈ fli.possible_interps, interp.mecab_interp = none) →
        isSymbol fli = false)
    ∧ (∀ (jm : JMdictData) (base_decomp : List FoundJpnLexicalItem),
        ∀ fli ∈ lookupMetaLexicalItem jm base_decomp, isSymbol fli = false)
    ∧ (∀ (jm : JMdictData) (items : List FoundJpnLexicalItem),
        ∀ fli ∈ findMetaLexicalItems jm items, fli ∈ findLexicalItems jm items) := by
  have key : ∀ fli : FoundJpnLexicalItem,
      (∀ interp ∈ fli.possible_interps, interp.mecab_interp = none) →
      isSymbol fli = false := by
    intro fli hno
    rw [Bool.eq_false_iff]
    intro htrue
    obtain ⟨interp, hmem, mi, hmi, _⟩ := (isSymbol_eq_true_iff fli).mp htrue
    rw [hno interp hmem] at hmi
    exact Option.noConfusion hmi
  have lookup_not_symbol : ∀ (jm : JMdictData) (base_decomp : List FoundJpnLexicalItem),
      ∀ fli ∈ lookupMetaLexicalItem jm base_decomp, isSymbol fli = false := by
    intro jm base_decomp fli hmem
    exact key fli (lookupMeta_interps_no_mecab jm base_decomp fli hmem)
  refine ⟨key, lookup_not_symbol, ?_⟩
  intro jm items fli hmem
  obtain ⟨decomp, hdecomp⟩ := mem_findMetaLexicalItems jm items fli hmem
  unfold findLexicalItems
  rw [filterSymbolItems, List.mem_filter]
  exact ⟨List.mem_append.mpr (Or.inr hmem),
    by rw [lookup_not_symbol jm decomp fli hdecomp]; rfl⟩

/-- C10 (witness): the meta item found for the window (食べ, 物) has no
MeCab interp, is not a symbol, and survives into the block's output. -/
theorem c10_meta_items_never_symbols_witness :
    isSymbol tabemonoMetaItem = false
    ∧ tabemonoMetaItem ∈ findLexicalItems exampleJmdict [tabeItem, monoItem] :=
  ⟨c10_meta_items_never_symbols.1 tabemonoMetaItem (by decide),
   c10_meta_items_never_symbols.2.2 exampleJmdict [tabeItem, monoItem]
     tabemonoMetaItem (by decide)⟩

/-- The inner meta loop emits exactly the lookups of its windows. -/
theorem innerMetaItems_eq_flatMap (jm : JMdictData) (items : List FoundJpnLexicalItem)
    (start : Nat) (ends : List Nat) :
    innerMetaItems jm items start ends
      = (innerMetaWindows jm items start ends).flatMap
          (fun w => lookupMetaLexicalItem jm w) := by
  induction ends with
  | nil => rfl
  | cons e rest ih =>
    simp only [innerMetaItems, innerMetaWindows]
    by_cases h : withinJmdictMaxEntryLen jm ((items.drop start).take (e + 1 - start)) = true
    · simp [h, ih]
    · simp [h]

/-- Every window of the inner loop passes the length bound. -/
theorem mem_innerMetaWindows_within (jm : JMdictData) (items : List FoundJpnLexicalItem)
    (start : Nat) (ends : List Nat) (W : List FoundJpnLexicalItem)
    (hmem : W ∈ innerMetaWindows jm items start ends) :
    withinJmdictMaxEntryLen jm W = true := by
  induction ends with
  | nil => exact absurd hmem (by simp [innerMetaWindows])
  | cons e rest ih =>
    rw [innerMetaWindows] at hmem
    split at hmem
    · rcases List.mem_cons.mp hmem with h | h
      · subst h; assumption
      · exact ih h
    · exact absurd hmem (by simp)

/-- C4: every window on which the meta-item finder performs a dictionary
lookup satisfies at least one of the three length measures (item count
within `max_mecab_decomp_len`, or summed base-form length or summed
first-surface-form length within `max_text_form_len`), and the inner
enumeration loop is a `takeWhile`: it stops at the first window for which
all three measures fail. -/
theorem c4_lookup_windows_within_bound :
    (∀ (jm : JMdictData) (items : List FoundJpnLexicalItem),
        findMetaLexicalItems jm items
          = (metaLookupWindows jm items).flatMap (fun w => lookupMetaLexicalItem jm w))
    ∧ (∀ (jm : JMdictData) (items : List FoundJpnLexicalItem),
        ∀ W ∈ metaLookupWindows jm items, withinJmdictMaxEntryLen jm W = true)
    ∧ (∀ (jm : JMdictData) (W : List FoundJpnLexicalItem),
        withinJmdictMaxEntryLen jm W = true ↔
          (W.length ≤ jm.max_mecab_decomp_len
            ∨ (W.map (fun item => item.base_form.length)).sum ≤ jm.max_text_form_len
            ∨ (W.map (fun item => (getFirstSurfaceForm item).length)).sum
                ≤ jm.max_text_form_len))
    ∧ (∀ (jm : JMdictData) (items : List FoundJpnLexicalItem) (start : Nat) (ends : List Nat),
        innerMetaWindows jm items start ends
          = ((ends.map (fun e => (items.drop start).take (e + 1 - start))).takeWhile
              (fun w => withinJmdictMaxEntryLen jm w))) := by
  refine ⟨?_, ?_, ?_, ?_⟩
  · intro jm items
    simp only [findMetaLexicalItems, metaLookupWindows, innerMetaItems_eq_flatMap]
    rw [List.flatMap_assoc]
  · intro jm items W hmem
    simp only [metaLookupWindows] at hmem
    obtain ⟨start, _, h⟩ := List.mem_flatMap.mp hmem
    exact mem_innerMetaWindows_within jm items start _ W h
  · intro jm W
    unfold withinJmdictMaxEntryLen
    split_ifs with h1 h2 h3
    · simp [h1]
    · simp [h2]
    · simp [h3]
    · simp [h1, h2, h3]
  · intro jm items start ends
    induction ends with
    | nil => rfl
    | cons e rest ih =>
      simp only [innerMetaWindows, List.map_cons, List.takeWhile_cons]
      by_cases h : withinJmdictMaxEntryLen jm ((items.drop start).take (e + 1 - start)) = true
      · simp [h, ih]
      · simp [h]

/-- C4 (witness): the window (食べ, 物) is looked up and passes the bound. -/
theorem c4_lookup_windows_within_bound_witness :
    withinJmdictMaxEntryLen exampleJmdict [tabeItem, monoItem] = true :=
  c4_lookup_windows_within_bound.2.1 exampleJmdict [tabeItem, monoItem]
    [tabeItem, monoItem] (by decide)

/-- C5: for a window of base items, if the decomposition, surface-form and
base-form lookups are all empty the meta finder emits nothing; otherwise
it emits exactly one meta item per entry of the first-seen-order unique
union of the three result lists, with `base_form` the entry's text form, a
single position starting at the window's first item's start and covering
the summed first-surface-form lengths, and a single dictionary
interpretation whose source tags are exactly the subset of the three
lookups that returned the entry. -/
theorem c5_meta_lookup_emission (jm : JMdictData) (base_decomp : List FoundJpnLexicalItem)
    (decomp_entries surface_entries base_entries : List JMdictEntry)
    (hd : decomp_entries = getEntriesByDecomp jm (base_decomp.map (fun item => item.base_form)))
    (hs : surface_entries
      = getEntriesByForm jm ((base_decomp.map (fun item => getFirstSurfaceForm item)).flatten))
    (hb : base_entries
      = getEntriesByForm jm ((base_decomp.map (fun item => item.base_form)).flatten)) :
    (decomp_entries = [] ∧ surface_entries = [] ∧ base_entries = [] →
        lookupMetaLexicalItem jm base_decomp = [])
    ∧ lookupMetaLexicalItem jm base_decomp
        = (unique (decomp_entries ++ surface_entries ++ base_entries)).map (fun entry =>
            { base_form := entry.text_form
              found_positions :=
                [{ start := ((base_decomp.getD 0 default).found_positions.getD 0 default).start
                   length := ((base_decomp.map (fun item => getFirstSurfaceForm item)).flatten).length }]
              possible_interps :=
                [{ jmdict_interp_entry_id := some entry.entry_id
                   mecab_interp := none
                   interp_sources :=
                     (if entry ∈ decomp_entries then [InterpSource.JMDICT_MECAB_DECOMP] else [])
                     ++ (if entry ∈ surface_entries then [InterpSource.JMDICT_SURFACE_FORM] else [])
                     ++ (if entry ∈ base_entries then [InterpSource.JMDICT_BASE_FORM] else []) }]
              surface_form_cache := [] })
    ∧ ((base_decomp.map (fun item => getFirstSurfaceForm item)).flatten).length
        = (base_decomp.map (fun item => (getFirstSurfaceForm item).length)).sum
    ∧ (∀ (entry : JMdictEntry) (src : InterpSource),
        src ∈ ((if entry ∈ decomp_entries then [InterpSource.JMDICT_MECAB_DECOMP] else [])
               ++ (if entry ∈ surface_entries then [InterpSource.JMDICT_SURFACE_FORM] else [])
               ++ (if entry ∈ base_entries then [InterpSource.JMDICT_BASE_FORM] else [])) ↔
          ((src = InterpSource.JMDICT_MECAB_DECOMP ∧ entry ∈ decomp_entries)
            ∨ (src = InterpSource.JMDICT_SURFACE_FORM ∧ entry ∈ surface_entries)
            ∨ (src = InterpSource.JMDICT_BASE_FORM ∧ entry ∈ base_entries))) := by
  subst hd hs hb
  refine ⟨?_, ?_, ?_, ?_⟩
  · rintro ⟨h1, h2, h3⟩
    simp only [lookupMetaLexicalItem]
    rw [if_pos ⟨h1, h2, h3⟩]
  · simp only [lookupMetaLexicalItem]
    by_cases h : getEntriesByDecomp jm (base_decomp.map (fun item => item.base_form)) = []
        ∧ getEntriesByForm jm ((base_decomp.map (fun item => getFirstSurfaceForm item)).flatten) = []
        ∧ getEntriesByForm jm ((base_decomp.map (fun item => item.base_form)).flatten) = []
    · rw [if_pos h, h.1, h.2.1, h.2.2]
      rfl
    · rw [if_neg h]
  · rw [List.length_flatten, List.map_map]
    rfl
  · intro entry src
    by_cases h1 : entry ∈ getEntriesByDecomp jm (base_decomp.map (fun item => item.base_form)) <;>
      by_cases h2 : entry
        ∈ getEntriesByForm jm ((base_decomp.map (fun item => getFirstSurfaceForm item)).flatten) <;>
      by_cases h3 : entry
        ∈ getEntriesByForm jm ((base_decomp.map (fun item => item.base_form)).flatten) <;>
      simp [h1, h2, h3]

/-- C5 (witness): the window (食べ, 物) against the one-entry store
produces exactly the meta item for 食べ物, found by decomposition and by
surface form but not by base form. -/
theorem c5_meta_lookup_emission_witness :
    lookupMetaLexicalItem exampleJmdict [tabeItem, monoItem] = [tabemonoMetaItem] := by
  have h := c5_meta_lookup_emission exampleJmdict [tabeItem, monoItem]
    [tabemonoEntry] [tabemonoEntry] [] (by decide) (by decide) (by decide)
  rw [h.2.1]
  decide

/-- A successful run of the alignment loop stops at the first matching
cursor position at or after its start. -/
theorem alignLoop_some_spec (text surface : Str) :
    ∀ (fuel offset k : Nat), alignLoop text surface fuel offset = some k →
      offset ≤ k ∧ sliceMatches text k surface = true
      ∧ ∀ j, offset ≤ j → j < k → sliceMatches text j surface = false := by
  intro fuel
  induction fuel with
  | zero => intro offset k h; exact absurd h (by simp [alignLoop])
  | succ n ih =>
    intro offset k h
    rw [alignLoop] at h
    by_cases hm : sliceMatches text offset surface = true
    · rw [if_pos hm] at h
      obtain rfl : offset = k := by injection h
      exact ⟨le_refl _, hm, fun j h1 h2 => absurd (lt_of_le_of_lt h1 h2) (lt_irrefl _)⟩
    · rw [if_neg hm] at h
      obtain ⟨h1, h2, h3⟩ := ih (offset + 1) k h
      refine ⟨le_trans (Nat.le_succ _) h1, h2, ?_⟩
      intro j hj1 hj2
      rcases Nat.eq_or_lt_of_le hj1 with rfl | hlt
      · exact Bool.eq_false_iff.mpr hm
      · exact h3 j hlt hj2

/-- A failed run of the alignment loop means no cursor position in its
fuel range matches. -/
theorem alignLoop_none_spec (text surface : Str) :
    ∀ (fuel offset : Nat), alignLoop text surface fuel offset = none →
      ∀ j, offset ≤ j → j < offset + fuel → sliceMatches text j surface = false := by
  intro fuel
  induction fuel with
  | zero => intro offset _ j h1 h2; omega
  | succ n ih =>
    intro offset h j h1 h2
    rw [alignLoop] at h
    by_cases hm : sliceMatches text offset surface = true
    · rw [if_pos hm] at h; exact Option.noConfusion h
    · rw [if_neg hm] at h
      rcases Nat.eq_or_lt_of_le h1 with rfl | hlt
      · exact Bool.eq_false_iff.mpr hm
      · exact ih (offset + 1) h j hlt (by omega)

/-- If no cursor position at or after the start matches, the alignment
loop returns none whatever its fuel: the Python while loop never
terminates. -/
theorem alignLoop_none_of_nomatch (text surface : Str) :
    ∀ (fuel offset : Nat), (∀ j, offset ≤ j → sliceMatches text j surface = false) →
      alignLoop text surface fuel offset = none := by
  intro fuel
  induction fuel with
  | zero => intro offset _; rfl
  | succ n ih =>
    intro offset h
    rw [alignLoop, if_neg (by rw [h offset (le_refl _)]; simp),
      ih (offset + 1) (fun j hj => h j (by omega))]

/-- A failed bounded search means no cursor position at or after the start
ever matches: the search range covers the whole text, and past its end
every slice is empty while the surface form is provably non-empty. -/
theorem findAlign_none_nomatch (text surface : Str) (offset : Nat)
    (h : findAlign text offset surface = none) :
    ∀ j, offset ≤ j → sliceMatches text j surface = false := by
  rw [findAlign] at h
  have hrange := alignLoop_none_spec text surface (text.length + 1 - offset + 1) offset h
  intro j hj
  by_cases hjin : j < offset + (text.length + 1 - offset + 1)
  · exact hrange j hj hjin
  · have hoff : sliceMatches text offset surface = false :=
      hrange offset (le_refl _) (by omega)
    have hsur : surface ≠ [] := by
      intro hs
      rw [hs] at hoff
      simp [sliceMatches] at hoff
    have hj2 : text.length < j := by omega
    have hdrop : text.drop j = [] := List.drop_eq_nil_of_le (le_of_lt hj2)
    rw [sliceMatches, hdrop]
    exact decide_eq_false (fun heq => hsur (by simpa using heq.symm))

/-- The cons step of the per-token loop on an accepted, aligned token. -/
theorem parseTokens_cons_accept (text : Str) (text_offset : Nat) (tags : List Str)
    (rest : List (List Str)) (offset k : Nat)
    (hEOS : ¬(tags.length = 1 ∧ tags.getD 0 [] = endOfSectionMarker))
    (hcount : tags.length ∈ expectedTokenTagCounts)
    (halign : findAlign text offset (tags.getD 0 []) = some k) :
    parseTokens text text_offset (tags :: rest) offset
      = consOk (createFoundLexicalItem tags (createMecabInterp tags) (text_offset + k))
          (parseTokens text text_offset rest (k + (tags.getD 0 []).length)) := by
  rw [parseTokens, if_neg hEOS, if_neg (not_not_intro hcount), halign]

/-- C3: on surface-form alignment failure MecabTagger.parse does not raise
a TextAnalysisError: the offset-adjustment while loop never terminates
(Python slicing past the end of the text yields the empty string forever).
Concretely, for the text あい and the well-formed token line whose surface
form ぬ never occurs in it, the parse diverges, and the alignment loop
returns no position for every amount of fuel. -/
theorem c3_alignment_failure_diverges :
    parse alignFailText alignFailOut 0 = ParseResult.diverge
    ∧ ∀ fuel, alignLoop alignFailText alignFailSurface fuel 0 = none := by
  refine ⟨by decide, fun fuel => ?_⟩
  exact alignLoop_none_of_nomatch alignFailText alignFailSurface fuel 0
    (findAlign_none_nomatch alignFailText alignFailSurface 0 (by decide))

/-- C6: the cursor of MecabTagger.parse moves to the first position at or
after the previous cursor where the text matches the token's surface form;
an accepted token is recorded at position `(text_offset + cursor,
len(surface))` and the cursor then advances past the surface form; and on
the text 猫 が 走る (with spaces, which the tagger drops) the three base
items get position starts 0, 2 and 4. -/
theorem c6_offset_tracking :
    (∀ (text surface : Str) (offset k : Nat),
        findAlign text offset surface = some k →
          offset ≤ k ∧ sliceMatches text k surface = true
          ∧ ∀ j, offset ≤ j → j < k → sliceMatches text j surface = false)
    ∧ (∀ (text : Str) (text_offset : Nat) (tags : List Str) (rest : List (List Str))
          (offset k : Nat),
        ¬(tags.length = 1 ∧ tags.getD 0 [] = endOfSectionMarker) →
        tags.length ∈ expectedTokenTagCounts →
        findAlign text offset (tags.getD 0 []) = some k →
          (parseTokens text text_offset (tags :: rest) offset
            = consOk (createFoundLexicalItem tags (createMecabInterp tags) (text_offset + k))
                (parseTokens text text_offset rest (k + (tags.getD 0 []).length)))
          ∧ (createFoundLexicalItem tags (createMecabInterp tags)
              (text_offset + k)).found_positions
              = [{ start := text_offset + k, length := (tags.getD 0 []).length }])
    ∧ parse nekoText nekoOut 0 = ParseResult.ok [nekoItem1, nekoItem2, nekoItem3] := by
  refine ⟨?_, ?_, by decide⟩
  · intro text surface offset k h
    rw [findAlign] at h
    exact alignLoop_some_spec text surface _ offset k h
  · intro text text_offset tags rest offset k hEOS hcount halign
    refine ⟨parseTokens_cons_accept text text_offset tags rest offset k hEOS hcount halign, ?_⟩
    simp only [createFoundLexicalItem, cacheSurfaceForm]
    split <;> rfl

/-- C6 (witness): for the token が of the scenario, the cursor moves from
1 to the first match at 2, skipping the space. -/
theorem c6_offset_tracking_witness :
    1 ≤ 2 ∧ sliceMatches nekoText 2 "が".toList = true
    ∧ ∀ j, 1 ≤ j → j < 2 → sliceMatches nekoText j "が".toList = false :=
  c6_offset_tracking.1 nekoText "が".toList 1 2 (by decide)

/-- C7: a non-EOS parsed token line with a token count other than 4, 5 or
6 makes MecabTagger.parse fail with a TextAnalysisError for the whole
text; an accepted line (count 4, 5 or 6) contributes exactly one
FoundLexicalItem, and a successful parse returns exactly one item per
non-EOS line. -/
theorem c7_token_count_contract :
    (∀ (text : Str) (text_offset : Nat) (tags : List Str) (rest : List (List Str))
        (offset : Nat),
      ¬(tags.length = 1 ∧ tags.getD 0 [] = endOfSectionMarker) →
      tags.length ∉ expectedTokenTagCounts →
      parseTokens text text_offset (tags :: rest) offset = ParseResult.textAnalysisError)
    ∧ (∀ (text : Str) (text_offset : Nat) (tags : List Str) (rest : List (List Str))
          (offset k : Nat) (items : List FoundJpnLexicalItem),
        ¬(tags.length = 1 ∧ tags.getD 0 [] = endOfSectionMarker) →
        tags.length ∈ expectedTokenTagCounts →
        findAlign text offset (tags.getD 0 []) = some k →
        parseTokens text text_offset rest (k + (tags.getD 0 []).length)
          = ParseResult.ok items →
        parseTokens text text_offset (tags :: rest) offset
          = ParseResult.ok (createFoundLexicalItem tags (createMecabInterp tags)
              (text_offset + k) :: items))
    ∧ (∀ (text : Str) (text_offset : Nat) (toks : List (List Str)) (offset : Nat)
          (items : List FoundJpnLexicalItem),
        parseTokens text text_offset toks offset = ParseResult.ok items →
        items.length = (toks.filter (fun tags =>
          ! decide (tags.length = 1 ∧ tags.getD 0 [] = endOfSectionMarker))).length) := by
  refine ⟨?_, ?_, ?_⟩
  · intro text text_offset tags rest offset hEOS hcount
    rw [parseTokens, if_neg hEOS, if_pos hcount]
  · intro text text_offset tags rest offset k items hEOS hcount halign hrec
    rw [parseTokens_cons_accept text text_offset tags rest offset k hEOS hcount halign,
      hrec, consOk]
  · intro text text_offset toks
    induction toks with
    | nil =>
      intro offset items h
      rw [parseTokens] at h
      obtain rfl : ([] : List FoundJpnLexicalItem) = items := by injection h
      rfl
    | cons tags rest ih =>
      intro offset items h
      by_cases hEOS : tags.length = 1 ∧ tags.getD 0 [] = endOfSectionMarker
      · rw [parseTokens, if_pos hEOS] at h
        rw [List.filter_cons_of_neg (by rw [decide_eq_true hEOS]; simp)]
        exact ih offset items h
      · by_cases hcount : tags.length ∉ expectedTokenTagCounts
        · rw [parseTokens, if_neg hEOS, if_pos hcount] at h
          exact absurd h (by simp)
        · cases halign : findAlign text offset (tags.getD 0 []) with
          | none =>
            rw [parseTokens, if_neg hEOS, if_neg hcount, halign] at h
            exact absurd h (by simp)
          | some k =>
            rw [parseTokens_cons_accept text text_offset tags rest offset k hEOS
              (not_not.mp hcount) halign] at h
            cases hrec : parseTokens text text_offset rest (k + (tags.getD 0 []).length) with
            | ok rest_items =>
              rw [hrec, consOk] at h
              obtain rfl : _ :: rest_items = items := by injection h
              rw [List.filter_cons_of_pos (by rw [decide_eq_false hEOS]; rfl)]
              rw [List.length_cons, List.length_cons, ih _ rest_items hrec]
            | textAnalysisError =>
              rw [hrec] at h
              exact ParseResult.noConfusion h
            | diverge =>
              rw [hrec] at h
              exact ParseResult.noConfusion h

/-- C7 (witness): a two-token line is rejected for the whole text. -/
theorem c7_token_count_contract_witness :
    parseTokens alignFailText 0 [["あ".toList, "ア".toList]] 0
      = ParseResult.textAnalysisError :=
  c7_token_count_contract.1 alignFailText 0 ["あ".toList, "ア".toList] [] 0
    (by decide) (by decide)

/-- Lookup after a defaultdict append. -/
theorem dictGet_dictAppend {κ α : Type} [DecidableEq κ]
    (m : List (κ × List α)) (k : κ) (v : α) (q : κ) :
    dictGet (dictAppend m k v) q
      = if q = k then some ((dictGet m k).getD [] ++ [v]) else dictGet m q := by
  induction m with
  | nil =>
    by_cases h : q = k
    · subst h; simp [dictAppend, dictGet]
    · simp [dictAppend, dictGet, h, Ne.symm h]
  | cons p rest ih =>
    by_cases h1 : p.1 = k
    · subst h1
      by_cases h2 : q = p.1
      · subst h2; simp [dictAppend, dictGet]
      · simp [dictAppend, dictGet, h2, Ne.symm h2]
    · by_cases h2 : q = p.1
      · subst h2
        simp [dictAppend, dictGet, h1]
      · simp [dictAppend, dictGet, h1, h2, Ne.symm h2, ih]

/-- Unfolding lemma: a fold step. -/
theorem ddFold_cons {κ α : Type} [DecidableEq κ] (keyf : α → κ)
    (m : List (κ × List α)) (e : α) (es : List α) :
    ddFold keyf m (e :: es) = ddFold keyf (dictAppend m (keyf e) e) es := rfl

/-- The value list under a key after a defaultdict-append fold: whatever
the key held before, extended by the folded elements with that key, in
order. -/
theorem dictGet_ddFold_getD {κ α : Type} [DecidableEq κ] (keyf : α → κ) :
    ∀ (es : List α) (m : List (κ × List α)) (k : κ),
      (dictGet (ddFold keyf m es) k).getD []
        = (dictGet m k).getD [] ++ es.filter (fun e => decide (keyf e = k)) := by
  intro es
  induction es with
  | nil => intro m k; simp [ddFold]
  | cons e tl ih =>
    intro m k
    rw [ddFold_cons, ih, dictGet_dictAppend]
    by_cases h : keyf e = k
    · subst h; simp
    · simp [h, Ne.symm h]

/-- A key is absent after the fold exactly when it was absent before and
no folded element carries it. -/
theorem dictGet_ddFold_eq_none {κ α : Type} [DecidableEq κ] (keyf : α → κ) :
    ∀ (es : List α) (m : List (κ × List α)) (k : κ),
      dictGet (ddFold keyf m es) k = none ↔
        dictGet m k = none ∧ es.filter (fun e => decide (keyf e = k)) = [] := by
  intro es
  induction es with
  | nil => intro m k; simp [ddFold]
  | cons e tl ih =>
    intro m k
    rw [ddFold_cons, ih, dictGet_dictAppend]
    by_cases h : keyf e = k
    · subst h; simp
    · simp [h, Ne.symm h]

/-- A key is in the key list exactly when lookup succeeds. -/
theorem dictGet_eq_none_iff {κ α : Type} [DecidableEq κ] :
    ∀ (m : List (κ × α)) (k : κ), dictGet m k = none ↔ k ∉ m.map Prod.fst := by
  intro m
  induction m with
  | nil => intro k; simp [dictGet]
  | cons p rest ih =>
    intro k
    by_cases h : p.1 = k
    · subst h; simp [dictGet]
    · rw [dictGet, if_neg h, ih]
      simp [Ne.symm h]

/-- A successful lookup returns an exact member of the association list. -/
theorem dictGet_mem {κ α : Type} [DecidableEq κ] :
    ∀ (m : List (κ × α)) (k : κ) (v : α), dictGet m k = some v → (k, v) ∈ m := by
  intro m
  induction m with
  | nil => intro k v h; exact Option.noConfusion h
  | cons p rest ih =>
    intro k v h
    rw [dictGet] at h
    split at h
    · rename_i heq
      obtain rfl : p.2 = v := by injection h
      subst heq
      exact List.mem_cons_self _ _
    · right
      exact ih k v h

/-- The key list after a defaultdict append: unchanged when the key was
present, extended by the key otherwise. -/
theorem keys_dictAppend {κ α : Type} [DecidableEq κ] :
    ∀ (m : List (κ × List α)) (k : κ) (v : α),
      (dictAppend m k v).map Prod.fst
        = if k ∈ m.map Prod.fst then m.map Prod.fst else m.map Prod.fst ++ [k] := by
  intro m
  induction m with
  | nil => intro k v; simp [dictAppend]
  | cons p rest ih =>
    intro k v
    by_cases h : p.1 = k
    · subst h; simp [dictAppend]
    · rw [dictAppend, if_neg h, List.map_cons, List.map_cons, ih]
      by_cases h2 : k ∈ rest.map Prod.fst
      · rw [if_pos h2, if_pos (List.mem_cons_of_mem _ h2)]
      · rw [if_neg h2, if_neg (by simp [h2, Ne.symm h])]
        rfl

/-- Defaultdict appends preserve key-list uniqueness. -/
theorem nodup_keys_dictAppend {κ α : Type} [DecidableEq κ]
    (m : List (κ × List α)) (k : κ) (v : α)
    (hnd : (m.map Prod.fst).Nodup) : ((dictAppend m k v).map Prod.fst).Nodup := by
  rw [keys_dictAppend]
  split
  · exact hnd
  · rename_i hnotmem
    simp [List.nodup_append, hnd, hnotmem]

/-- The fold preserves key-list uniqueness. -/
theorem nodup_keys_ddFold {κ α : Type} [DecidableEq κ] (keyf : α → κ) :
    ∀ (es : List α) (m : List (κ × List α)),
      (m.map Prod.fst).Nodup → ((ddFold keyf m es).map Prod.fst).Nodup := by
  intro es
  induction es with
  | nil => intro m h; exact h
  | cons e tl ih =>
    intro m h
    rw [ddFold_cons]
    exact ih _ (nodup_keys_dictAppend m (keyf e) e h)

/-- Bucket purity: every element stored under a key has that key. -/
theorem ddInv_dictAppend {κ α : Type} [DecidableEq κ] (keyf : α → κ) :
    ∀ (m : List (κ × List α)) (k : κ) (v : α), keyf v = k →
      (∀ pr ∈ m, ∀ x ∈ pr.2, keyf x = pr.1) →
      ∀ pr ∈ dictAppend m k v, ∀ x ∈ pr.2, keyf x = pr.1 := by
  intro m
  induction m with
  | nil =>
    intro k v hv _ pr hpr x hx
    simp [dictAppend] at hpr
    subst hpr
    simp at hx
    subst hx
    exact hv
  | cons p rest ih =>
    intro k v hv hinv pr hpr x hx
    rw [dictAppend] at hpr
    split at hpr
    · rename_i heq
      rcases List.mem_cons.mp hpr with rfl | hmem
      · rcases List.mem_append.mp hx with hxl | hxr
        · exact hinv p (List.mem_cons_self _ _) x hxl
        · simp at hxr
          subst hxr
          rw [hv, heq]
      · exact hinv pr (List.mem_cons_of_mem _ hmem) x hx
    · rcases List.mem_cons.mp hpr with rfl | hmem
      · exact hinv pr (List.mem_cons_self _ _) x hx
      · exact ih k v hv (fun q hq => hinv q (List.mem_cons_of_mem _ hq)) pr hmem x hx

/-- The fold preserves bucket purity. -/
theorem ddInv_ddFold {κ α : Type} [DecidableEq κ] (keyf : α → κ) :
    ∀ (es : List α) (m : List (κ × List α)),
      (∀ pr ∈ m, ∀ x ∈ pr.2, keyf x = pr.1) →
      ∀ pr ∈ ddFold keyf m es, ∀ x ∈ pr.2, keyf x = pr.1 := by
  intro es
  induction es with
  | nil => intro m h; exact h
  | cons e tl ih =>
    intro m h
    rw [ddFold_cons]
    exact ih _ (ddInv_dictAppend keyf m (keyf e) e rfl h)

/-- Filtering the concatenated bucket lists for a predicate that only
holds inside one key class: a defaultdict append adds its element at the
end of the filtered concatenation, even though the element lands in the
middle bucket, because later buckets hold no element of that class. -/
theorem filter_flatMap_dictAppend {κ α : Type} [DecidableEq κ] (keyf : α → κ)
    (p : α → Bool) (c : κ) (hp : ∀ x, p x = true → keyf x = c) :
    ∀ (m : List (κ × List α)) (k : κ) (v : α), keyf v = k →
      (∀ pr ∈ m, ∀ x ∈ pr.2, keyf x = pr.1) →
      (m.map Prod.fst).Nodup →
      ((dictAppend m k v).flatMap (fun pr => pr.2)).filter p
        = (m.flatMap (fun pr => pr.2)).filter p ++ (if p v then [v] else []) := by
  intro m
  induction m with
  | nil =>
    intro k v _ _ _
    simp [dictAppend, List.filter_cons]
  | cons pr0 rest ih =>
    intro k v hv hinv hnd
    by_cases h : pr0.1 = k
    · subst h
      rw [dictAppend, if_pos rfl]
      simp only [List.flatMap_cons, List.filter_append]
      by_cases hpv : p v = true
      · have hrest : (rest.flatMap (fun pr => pr.2)).filter p = [] := by
          rw [List.filter_eq_nil_iff]
          intro x hx
          obtain ⟨q, hq, hxq⟩ := List.mem_flatMap.mp hx
          intro hpx
          have h1 : keyf x = q.1 := hinv q (List.mem_cons_of_mem _ hq) x hxq
          have h2 : keyf x = c := hp x hpx
          have h3 : keyf v = c := hp v hpv
          have : q.1 = pr0.1 := by rw [← h1, h2, ← h3, hv]
          have hnotin : pr0.1 ∉ rest.map Prod.fst := (List.nodup_cons.mp hnd).1
          exact hnotin (this ▸ List.mem_map_of_mem Prod.fst hq)
        rw [hrest, if_pos hpv]
        simp [List.filter_cons, hpv]
      · rw [if_neg hpv]
        simp [List.filter_append, List.filter_cons, hpv]
    · rw [dictAppend, if_neg h]
      simp only [List.flatMap_cons, List.filter_append]
      rw [ih k v hv (fun q hq => hinv q (List.mem_cons_of_mem _ hq))
        (List.nodup_cons.mp hnd).2, List.append_assoc]

/-- Filtering the concatenated bucket lists of a fold for a predicate that
only holds inside one key class recovers the filtered input, in order. -/
theorem filter_flatMap_ddFold {κ α : Type} [DecidableEq κ] (keyf : α → κ)
    (p : α → Bool) (c : κ) (hp : ∀ x, p x = true → keyf x = c) :
    ∀ (es : List α) (m : List (κ × List α)),
      (∀ pr ∈ m, ∀ x ∈ pr.2, keyf x = pr.1) →
      (m.map Prod.fst).Nodup →
      ((ddFold keyf m es).flatMap (fun pr => pr.2)).filter p
        = (m.flatMap (fun pr => pr.2)).filter p ++ es.filter p := by
  intro es
  induction es with
  | nil => intro m _ _; simp [ddFold]
  | cons e tl ih =>
    intro m hinv hnd
    rw [ddFold_cons,
      ih (dictAppend m (keyf e) e) (ddInv_dictAppend keyf m (keyf e) e rfl hinv)
        (nodup_keys_dictAppend m (keyf e) e hnd),
      filter_flatMap_dictAppend keyf p c hp m (keyf e) e rfl hinv hnd,
      List.filter_cons, List.append_assoc]
    by_cases hpe : p e = true
    · simp [hpe]
    · simp [hpe]

/-- Re-inserting the items of a unique-keyed association list with plain
assignments rebuilds exactly the same list. -/
theorem dictSet_of_not_mem {κ β : Type} [DecidableEq κ] :
    ∀ (m : List (κ × β)) (k : κ) (v : β), k ∉ m.map Prod.fst →
      dictSet m k v = m ++ [(k, v)] := by
  intro m
  induction m with
  | nil => intro k v _; rfl
  | cons p rest ih =>
    intro k v h
    have h1 : ¬ p.1 = k := fun hh => h (by simp [hh.symm])
    rw [dictSet, if_neg h1, ih k v (fun hh => h (List.mem_cons_of_mem _ hh))]
    rfl

/-- Folding plain dict assignments over fresh unique keys appends them. -/
theorem foldl_dictSet_append {κ β : Type} [DecidableEq κ] :
    ∀ (items : List (κ × β)) (acc : List (κ × β)),
      (∀ k ∈ items.map Prod.fst, k ∉ acc.map Prod.fst) →
      (items.map Prod.fst).Nodup →
      items.foldl (fun m kv => dictSet m kv.1 kv.2) acc = acc ++ items := by
  intro items
  induction items with
  | nil => intro acc _ _; simp
  | cons kv tl ih =>
    intro acc hdisj hnd
    rw [List.foldl_cons,
      dictSet_of_not_mem acc kv.1 kv.2 (hdisj kv.1 (by simp)),
      ih (acc ++ [(kv.1, kv.2)]) ?_ (List.nodup_cons.mp hnd).2]
    · simp
    · intro k hk
      simp only [List.map_append, List.mem_append]
      rintro (h | h)
      · exact hdisj k (List.mem_cons_of_mem _ hk) h
      · simp at h
        exact (List.nodup_cons.mp hnd).1 (h ▸ hk)

/-- Members bound by `maxNat`. -/
theorem le_maxNat_of_mem : ∀ (l : List Nat) (a : Nat), a ∈ l → a ≤ maxNat l := by
  intro l
  induction l with
  | nil => intro a h; exact absurd h (by simp)
  | cons b tl ih =>
    intro a h
    rcases List.mem_cons.mp h with rfl | h
    · exact Nat.le_max_left _ _
    · exact le_trans (ih a h) (Nat.le_max_right _ _)

/-- Unfolding lemma for `maxNat`. -/
theorem maxNat_cons (b : Nat) (tl : List Nat) :
    maxNat (b :: tl) = Nat.max b (maxNat tl) := rfl

/-- `maxNat` is zero or attained. -/
theorem maxNat_mem_or_zero : ∀ (l : List Nat), maxNat l = 0 ∨ maxNat l ∈ l := by
  intro l
  induction l with
  | nil => exact Or.inl rfl
  | cons b tl ih =>
    rw [maxNat_cons]
    rcases Nat.le_total b (maxNat tl) with hle | hle
    · rw [show Nat.max b (maxNat tl) = maxNat tl from Nat.max_eq_right hle]
      rcases ih with h0 | hmem
      · exact Or.inl h0
      · exact Or.inr (List.mem_cons_of_mem _ hmem)
    · rw [show Nat.max b (maxNat tl) = b from Nat.max_eq_left hle]
      exact Or.inr (List.mem_cons_self _ _)

/-- Lists with the same members have the same `maxNat`. -/
theorem maxNat_eq_of_mem_iff (l1 l2 : List Nat) (h : ∀ a, a ∈ l1 ↔ a ∈ l2) :
    maxNat l1 = maxNat l2 := by
  have half : ∀ (u v : List Nat), (∀ a, a ∈ u ↔ a ∈ v) → maxNat u ≤ maxNat v := by
    intro u v huv
    rcases maxNat_mem_or_zero u with h0 | hmem
    · omega
    · exact le_maxNat_of_mem v (maxNat u) ((huv (maxNat u)).mp hmem)
  exact le_antisymm (half l1 l2 h) (half l2 l1 (fun a => (h a).symm))

/-- Both components of the XML map-building loop are defaultdict folds. -/
theorem buildMaps_eq_ddFold (d : Str → List Str) (entries : List JMdictEntry) :
    buildMaps d entries
      = (ddFold (fun e => e.text_form) [] entries,
         ddFold (fun e => d e.text_form) [] entries) := by
  have h : ∀ (es : List JMdictEntry) (em : List (Str × List JMdictEntry))
      (dm : List (List Str × List JMdictEntry)),
      es.foldl (fun maps e =>
          (dictAppend maps.1 e.text_form e, dictAppend maps.2 (d e.text_form) e)) (em, dm)
        = (ddFold (fun e => e.text_form) em es, ddFold (fun e => d e.text_form) dm es) := by
    intro es
    induction es with
    | nil => intro em dm; rfl
    | cons e tl ih => intro em dm; rw [List.foldl_cons, ih]; rfl
  exact h entries [] []

/-- The text-form-index rebuild from the shelf is a defaultdict fold over
the concatenation of the stored entry lists. -/
theorem shelfRebuildEntryMap_eq_ddFold (items : List (List Str × List JMdictEntry)) :
    shelfRebuildEntryMap items
      = ddFold (fun e => e.text_form) [] (items.flatMap (fun kv => kv.2)) := by
  have h : ∀ (its : List (List Str × List JMdictEntry)) (em : List (Str × List JMdictEntry)),
      its.foldl (fun em2 kv =>
          kv.2.foldl (fun em3 e => dictAppend em3 e.text_form e) em2) em
        = ddFold (fun e => e.text_form) em (its.flatMap (fun kv => kv.2)) := by
    intro its
    induction its with
    | nil => intro em; rfl
    | cons kv tl ih =>
      intro em
      rw [List.foldl_cons, ih, List.flatMap_cons, ddFold, ddFold, List.foldl_append]
  exact h items []

/-- Rebuilding the decomposition index from its own items restores it. -/
theorem shelfRebuildDecompMap_self (dm : List (List Str × List JMdictEntry))
    (hnd : (dm.map Prod.fst).Nodup) : shelfRebuildDecompMap dm = dm := by
  rw [shelfRebuildDecompMap, foldl_dictSet_append dm [] (by simp) hnd]
  rfl

/-- Buckets built by defaultdict appends are never empty. -/
theorem dictAppend_values_ne_nil {κ α : Type} [DecidableEq κ] :
    ∀ (m : List (κ × List α)) (k : κ) (v : α),
      (∀ pr ∈ m, pr.2 ≠ []) → ∀ pr ∈ dictAppend m k v, pr.2 ≠ [] := by
  intro m
  induction m with
  | nil =>
    intro k v _ pr hpr
    simp [dictAppend] at hpr
    subst hpr
    simp
  | cons p rest ih =>
    intro k v hm pr hpr
    rw [dictAppend] at hpr
    split at hpr
    · rcases List.mem_cons.mp hpr with rfl | hmem
      · simp
      · exact hm pr (List.mem_cons_of_mem _ hmem)
    · rcases List.mem_cons.mp hpr with rfl | hmem
      · exact hm pr (List.mem_cons_self _ _)
      · exact ih k v (fun q hq => hm q (List.mem_cons_of_mem _ hq)) pr hmem

/-- Bucket lists after the fold are never empty. -/
theorem ddFold_values_ne_nil {κ α : Type} [DecidableEq κ] (keyf : α → κ) :
    ∀ (es : List α) (m : List (κ × List α)),
      (∀ pr ∈ m, pr.2 ≠ []) → ∀ pr ∈ ddFold keyf m es, pr.2 ≠ [] := by
  intro es
  induction es with
  | nil => intro m h; exact h
  | cons e tl ih =>
    intro m h
    rw [ddFold_cons]
    exact ih _ (dictAppend_values_ne_nil m (keyf e) e h)

/-- C8: loading the dictionary from XML, writing the cache (the
decomposition-index items), and reloading from the cache when the cache
modification time is strictly newer than the XML's yields equal indexes —
the decomposition index literally, in insertion order, and the text-form
index with an identical entry list under every key (entry order within
each list preserved) — with the two max-length scalars recomputed to the
same values.  The entry decomposition is `d text_form`, a fixed function
of the text form, since `_get_mecab_decomb` feeds the text form through
the (deterministic) tagger. -/
theorem c8_shelf_roundtrip (d : Str → List Str) (entries : List JMdictEntry)
    (shelfTs xmlTs : Int) (loaded : Bool) (o r : JMdictObj)
    (ho : o = loadJmdictFromXml d entries)
    (hr : (loaded, r) = loadFromShelfIfNewer initJMdictObj true shelfTs xmlTs
            (writeToShelf (buildMaps d entries).2))
    (ht : xmlTs < shelfTs) :
    loaded = true
    ∧ r.mecab_decomp_map = o.mecab_decomp_map
    ∧ (∀ f, dictGet (r.entry_map.getD []) f = dictGet (o.entry_map.getD []) f)
    ∧ r.max_text_form_len = o.max_text_form_len
    ∧ r.max_mecab_decomp_len = o.max_mecab_decomp_len := by
  subst ho
  rw [loadFromShelfIfNewer, if_neg (by simp), if_neg (not_le.mpr ht)] at hr
  injection hr with h1 h2
  subst h1
  subst h2
  have hbm := buildMaps_eq_ddFold d entries
  have hem : (buildMaps d entries).1 = ddFold (fun e => e.text_form) [] entries := by
    rw [hbm]
  have hdm : (buildMaps d entries).2
      = ddFold (fun e => d e.text_form) [] entries := by
    rw [hbm]
  have hnd : (((buildMaps d entries).2).map Prod.fst).Nodup := by
    rw [hdm]
    exact nodup_keys_ddFold _ entries [] (by simp)
  have hdm2 : shelfRebuildDecompMap (writeToShelf (buildMaps d entries).2)
      = (buildMaps d entries).2 := by
    rw [writeToShelf]
    exact shelfRebuildDecompMap_self _ hnd
  have hem2 : shelfRebuildEntryMap (writeToShelf (buildMaps d entries).2)
      = ddFold (fun e => e.text_form) []
          (((buildMaps d entries).2).flatMap (fun kv => kv.2)) := by
    rw [writeToShelf, shelfRebuildEntryMap_eq_ddFold]
  have hfilter : ∀ f : Str,
      (((buildMaps d entries).2).flatMap (fun kv => kv.2)).filter
          (fun e => decide (e.text_form = f))
        = entries.filter (fun e => decide (e.text_form = f)) := by
    intro f
    have hmain := filter_flatMap_ddFold (fun e => d e.text_form)
      (fun e => decide (e.text_form = f)) (d f)
      (fun x hx => by
        rw [decide_eq_true_eq] at hx
        show d x.text_form = d f
        rw [hx])
      entries [] (by simp) (by simp)
    rw [hdm]
    simpa using hmain
  have hget : ∀ f, dictGet (shelfRebuildEntryMap (writeToShelf (buildMaps d entries).2)) f
      = dictGet ((buildMaps d entries).1) f := by
    intro f
    rw [hem2, hem]
    cases h1 : dictGet (ddFold (fun e => e.text_form) [] entries) f with
    | none =>
      have h1f := ((dictGet_ddFold_eq_none (fun e => e.text_form) entries [] f).mp h1).2
      rw [dictGet_ddFold_eq_none]
      exact ⟨rfl, by rw [hfilter f]; exact h1f⟩
    | some l =>
      have e1 := dictGet_ddFold_getD (fun e => e.text_form) entries [] f
      rw [h1] at e1
      cases h2 : dictGet (ddFold (fun e => e.text_form) []
          (((buildMaps d entries).2).flatMap (fun kv => kv.2))) f with
      | none =>
        exfalso
        have h2f := ((dictGet_ddFold_eq_none (fun e => e.text_form)
          (((buildMaps d entries).2).flatMap (fun kv => kv.2)) [] f).mp h2).2
        rw [hfilter f] at h2f
        have : dictGet (ddFold (fun e => e.text_form) [] entries) f = none :=
          (dictGet_ddFold_eq_none (fun e => e.text_form) entries [] f).mpr ⟨rfl, h2f⟩
        rw [h1] at this
        exact Option.noConfusion this
      | some l2 =>
        have e2 := dictGet_ddFold_getD (fun e => e.text_form)
          (((buildMaps d entries).2).flatMap (fun kv => kv.2)) [] f
        rw [h2, hfilter f] at e2
        have hl : l2 = l := by
          have h12 := e2.trans e1.symm
          simpa using h12
        rw [hl]
  have hkeys : ∀ s : Str,
      s ∈ (shelfRebuildEntryMap (writeToShelf (buildMaps d entries).2)).map Prod.fst
        ↔ s ∈ ((buildMaps d entries).1).map Prod.fst := by
    intro s
    rw [← not_iff_not, ← dictGet_eq_none_iff, ← dictGet_eq_none_iff, hget s]
  have hmaxtf : maxTextFormLenOf (shelfRebuildEntryMap (writeToShelf (buildMaps d entries).2))
      = maxTextFormLenOf ((buildMaps d entries).1) := by
    rw [maxTextFormLenOf, maxTextFormLenOf]
    apply maxNat_eq_of_mem_iff
    intro n
    simp only [List.mem_map]
    constructor
    · rintro ⟨p, hp, rfl⟩
      obtain ⟨q, hq, hq1⟩ :=
        List.mem_map.mp ((hkeys p.1).mp (List.mem_map_of_mem Prod.fst hp))
      exact ⟨q, hq, by rw [hq1]⟩
    · rintro ⟨p, hp, rfl⟩
      obtain ⟨q, hq, hq1⟩ :=
        List.mem_map.mp ((hkeys p.1).mpr (List.mem_map_of_mem Prod.fst hp))
      exact ⟨q, hq, by rw [hq1]⟩
  refine ⟨rfl, ?_, ?_, ?_, ?_⟩
  · show some (shelfRebuildDecompMap (writeToShelf (buildMaps d entries).2))
      = some ((buildMaps d entries).2)
    rw [hdm2]
  · intro f
    exact hget f
  · show some (maxTextFormLenOf (shelfRebuildEntryMap (writeToShelf (buildMaps d entries).2)))
      = some (maxTextFormLenOf ((buildMaps d entries).1))
    rw [hmaxtf]
  · show some (maxMecabDecompLenOf (shelfRebuildDecompMap (writeToShelf (buildMaps d entries).2)))
      = some (maxMecabDecompLenOf ((buildMaps d entries).2))
    rw [hdm2]

/-- C8 (witness): the round trip at a one-entry dictionary with cache
timestamp 2 against XML timestamp 1 recomputes the same max text-form
length. -/
theorem c8_shelf_roundtrip_witness :
    (loadFromShelfIfNewer initJMdictObj true 2 1
        (writeToShelf (buildMaps (fun s => [s]) [tabemonoEntry]).2)).2.max_text_form_len
      = (loadJmdictFromXml (fun s => [s]) [tabemonoEntry]).max_text_form_len :=
  (c8_shelf_roundtrip (fun s => [s]) [tabemonoEntry] 2 1
    (loadFromShelfIfNewer initJMdictObj true 2 1
      (writeToShelf (buildMaps (fun s => [s]) [tabemonoEntry]).2)).1
    (loadJmdictFromXml (fun s => [s]) [tabemonoEntry])
    (loadFromShelfIfNewer initJMdictObj true 2 1
      (writeToShelf (buildMaps (fun s => [s]) [tabemonoEntry]).2)).2
    rfl rfl (by decide)).2.2.2.1

/-- For a loaded store whose buckets are all non-empty, key membership
coincides with a non-empty lookup result. -/
theorem contains_get_core (em : List (Str × List JMdictEntry))
    (dm : List (List Str × List JMdictEntry)) (s1 s2 : Option Nat)
    (hem : ∀ pr ∈ em, pr.2 ≠ []) (hdm : ∀ pr ∈ dm, pr.2 ≠ []) (k : JMdictKey) :
    containsEntry ⟨some em, some dm, s1, s2⟩ k = Except.ok true ↔
      ∃ l, getEntries ⟨some em, some dm, s1, s2⟩ k = Except.ok l ∧ l ≠ [] := by
  cases k with
  | textForm s =>
    simp only [containsEntry, getEntries]
    cases h : dictGet em s with
    | none => simp [h]
    | some l =>
      have hl : l ≠ [] := hem (s, l) (dictGet_mem em s l h)
      simp [h, hl]
  | mecabDecomp t =>
    simp only [containsEntry, getEntries]
    cases h : dictGet dm t with
    | none => simp [h]
    | some l =>
      have hl : l ≠ [] := hdm (t, l) (dictGet_mem dm t l h)
      simp [h, hl]

/-- C9: after a successful load — from the XML or from a cache written by
this code — contains_entry answers true for a key (text form or
decomposition) exactly when get_entries returns a non-empty list for it;
and before any load both accessors raise ResourceNotReadyError. -/
theorem c9_contains_get_consistency :
    (∀ (d : Str → List Str) (entries : List JMdictEntry) (k : JMdictKey),
        containsEntry (loadJmdictFromXml d entries) k = Except.ok true ↔
          ∃ l, getEntries (loadJmdictFromXml d entries) k = Except.ok l ∧ l ≠ [])
    ∧ (∀ (d : Str → List Str) (entries : List JMdictEntry) (k : JMdictKey),
        containsEntry (loadFromShelfItems (writeToShelf (buildMaps d entries).2)) k
            = Except.ok true ↔
          ∃ l, getEntries (loadFromShelfItems (writeToShelf (buildMaps d entries).2)) k
              = Except.ok l ∧ l ≠ [])
    ∧ (∀ k, containsEntry initJMdictObj k = Except.error ()
        ∧ getEntries initJMdictObj k = Except.error ()) := by
  refine ⟨?_, ?_, fun k => ⟨rfl, rfl⟩⟩
  · intro d entries k
    have hem : ∀ pr ∈ (buildMaps d entries).1, pr.2 ≠ [] := by
      rw [show (buildMaps d entries).1 = ddFold (fun e => e.text_form) [] entries from
        by rw [buildMaps_eq_ddFold]]
      exact ddFold_values_ne_nil _ entries [] (by simp)
    have hdm : ∀ pr ∈ (buildMaps d entries).2, pr.2 ≠ [] := by
      rw [show (buildMaps d entries).2 = ddFold (fun e => d e.text_form) [] entries from
        by rw [buildMaps_eq_ddFold]]
      exact ddFold_values_ne_nil _ entries [] (by simp)
    exact contains_get_core (buildMaps d entries).1 (buildMaps d entries).2
      (some (maxTextFormLenOf (buildMaps d entries).1))
      (some (maxMecabDecompLenOf (buildMaps d entries).2)) hem hdm k
  · intro d entries k
    have hnd : (((buildMaps d entries).2).map Prod.fst).Nodup := by
      rw [show (buildMaps d entries).2 = ddFold (fun e => d e.text_form) [] entries from
        by rw [buildMaps_eq_ddFold]]
      exact nodup_keys_ddFold _ entries [] (by simp)
    have hdmvals : ∀ pr ∈ (buildMaps d entries).2, pr.2 ≠ [] := by
      rw [show (buildMaps d entries).2 = ddFold (fun e => d e.text_form) [] entries from
        by rw [buildMaps_eq_ddFold]]
      exact ddFold_values_ne_nil _ entries [] (by simp)
    have hem2 : ∀ pr ∈ shelfRebuildEntryMap (writeToShelf (buildMaps d entries).2),
        pr.2 ≠ [] := by
      rw [writeToShelf, shelfRebuildEntryMap_eq_ddFold]
      exact ddFold_values_ne_nil _ _ [] (by simp)
    have hdm2 : ∀ pr ∈ shelfRebuildDecompMap (writeToShelf (buildMaps d entries).2),
        pr.2 ≠ [] := by
      rw [writeToShelf, shelfRebuildDecompMap_self _ hnd]
      exact hdmvals
    exact contains_get_core
      (shelfRebuildEntryMap (writeToShelf (buildMaps d entries).2))
      (shelfRebuildDecompMap (writeToShelf (buildMaps d entries).2))
      (some (maxTextFormLenOf (shelfRebuildEntryMap (writeToShelf (buildMaps d entries).2))))
      (some (maxMecabDecompLenOf (shelfRebuildDecompMap (writeToShelf (buildMaps d entries).2))))
      hem2 hdm2 k

end Myaku
